import Mathlib

/-!
Shallow embedding of the persistence and aggregation core of the time
tracker in `src/main.py` (class `Store`, the duration helpers, and the two
GUI entry points that feed the store), together with proofs settling the
frozen claims about it.

Modelling conventions, chosen once and used throughout:

* Timestamps.  The program stores timestamps as ISO-8601 local-time strings
  with second precision (`datetime.now().isoformat(timespec="seconds")`) and
  compares them both lexicographically (in SQL `WHERE` clauses) and as
  parsed `datetime` values.  For canonical zero-padded second-precision ISO
  strings, lexicographic string order coincides with chronological order,
  and the string is determined by its instant; we therefore identify a
  parseable timestamp string with its integer value in seconds and model a
  timestamp string as `Ts := Option Int`, `none` standing for a string that
  `datetime.fromisoformat` rejects.  Distinct unparseable strings are
  identified; the lexicographic position of an unparseable string among
  timestamps is not representable in this abstraction, so `tsLe` fixes an
  arbitrary order for it (no theorem below depends on that corner).
* Clock.  Each store call receives the current time as an explicit integer
  argument `now`; the (at most two) `datetime.now()` reads inside a single
  Python call are identified.  Sub-second clock precision is below the
  second-precision storage model and is not represented.
* Exceptions.  A Python call that can raise is modelled as returning the
  post-call state together with `Except String r`: the state component
  records exactly the mutations committed before the raise (SQLite commits
  each statement separately; there is no enclosing transaction).
* SQLite row ids.  `INSERT` assigns `max existing id + 1`, SQLite's rowid
  rule for these tables.
-/

namespace TimeTracker

/-- A stored timestamp string: `some t` is the canonical second-precision
ISO-8601 rendering of instant `t` (integer seconds), `none` an unparseable
string. -/
abbrev Ts := Option Int

/-- Lexicographic comparison of stored timestamp strings, restricted to the
abstraction: on canonical strings it is the numeric order; the position of
an unparseable string is fixed arbitrarily (below every canonical string). -/
def tsLe : Ts → Ts → Bool
  | some a, some b => a ≤ b
  | none, _ => true
  | some _, none => false

/-- Left zero-padding to two digits, as Python's `f"{n:02d}"` for `n ≥ 0`
(numbers of three or more digits are printed in full). -/
def pad2 (n : Nat) : String :=
  if n < 10 then "0" ++ toString n else toString n

/-- `pretty_duration(seconds)` from `src/main.py`: sign, then absolute value
as zero-padded `HH:MM:SS` with unbounded hours. -/
def pretty_duration (seconds : Int) : String :=
  let neg := seconds < 0
  let s := seconds.natAbs
  let h := s / 3600
  let rem := s % 3600
  let m := rem / 60
  let s2 := rem % 60
  let sign := if neg then "-" else ""
  sign ++ pad2 h ++ ":" ++ pad2 m ++ ":" ++ pad2 s2

/-- Python's whitespace test for `str.strip()` (the ASCII part: space, tab,
line feed, carriage return, vertical tab, form feed). -/
def isPySpace (c : Char) : Bool :=
  c = ' ' || c = '\t' || c = '\n' || c = '\r' || c = Char.ofNat 11 || c = Char.ofNat 12

/-- Python's `str.strip()`: drop whitespace from both ends. -/
def strip (s : String) : String :=
  String.mk (((s.data.dropWhile isPySpace).reverse.dropWhile isPySpace).reverse)

/-- A row of the `projects` table. -/
structure Project where
  id : Nat
  name : String
deriving DecidableEq, Repr

/-- A row of the `entries` table.  `end_ts = none` is SQL `NULL` (open
entry); `end_ts = some ts` is a stored end string `ts`. -/
structure Entry where
  id : Nat
  project_id : Nat
  task : String
  notes : String
  start_ts : Ts
  end_ts : Option Ts
  duration_s : Option Int
deriving DecidableEq, Repr

/-- The persistent state: the two tables created by `Store._init_schema`. -/
structure Store where
  projects : List Project
  entries : List Entry
deriving DecidableEq, Repr

/-- The freshly initialised database. -/
def Store.empty : Store := ⟨[], []⟩

/-- SQLite's rowid for a new insert into these tables: one more than the
largest existing id. -/
def freshId (ids : List Nat) : Nat := ids.foldr max 0 + 1

/-- `Store.upsert_project`: trims the name, raises `ValueError` on an empty
result, otherwise inserts the name if absent (uniqueness is case-sensitive
at storage) and returns the id of the row with that exact name. -/
def upsert_project (s : Store) (name : String) : Except String (Store × Nat) :=
  let name := strip name
  if name = "" then .error "Project name cannot be empty"
  else
    match s.projects.find? (fun p => p.name = name) with
    | some p => .ok (s, p.id)
    | none =>
        let pid := freshId (s.projects.map (·.id))
        .ok ({ s with projects := s.projects ++ [⟨pid, name⟩] }, pid)

/-- The entries with `end_ts IS NULL` (open entries), in table order. -/
def open_entries (s : Store) : List Entry :=
  s.entries.filter (fun e => e.end_ts = none)

/-- `Store.get_running_entry`: the open entry with the greatest `start_ts`
(`ORDER BY e.start_ts DESC LIMIT 1`), restricted by the join to entries
whose project row exists.  Ties on `start_ts` are returned in an order
SQLite does not specify; this model keeps the first such row. -/
def get_running_entry (s : Store) : Option Entry :=
  (s.entries.filter
      (fun e => e.end_ts = none && s.projects.any (fun p => p.id = e.project_id))).foldl
    (fun acc e =>
      match acc with
      | none => some e
      | some a => if tsLe e.start_ts a.start_ts then some a else some e)
    none

/-- `Store.stop_entry`: looks the row up by id; a missing id returns with no
change.  Otherwise it parses the stored start (raising `ValueError` on an
unparseable string, before any write) and overwrites `end_ts` with `now`
and `duration_s` with `now - start` — whether or not the entry was already
closed. -/
def stop_entry (s : Store) (entry_id : Nat) (now : Int) : Except String Store :=
  match s.entries.find? (fun e => e.id = entry_id) with
  | none => .ok s
  | some e =>
      match e.start_ts with
      | none => .error "Invalid isoformat string"
      | some st =>
          .ok { s with
                entries := s.entries.map (fun x =>
                  if x.id = entry_id then
                    { x with end_ts := some (some now), duration_s := some (now - st) }
                  else x) }

/-- `Store.start_entry`: auto-stops the running entry if any, then upserts
the project (raising on an empty name, after the auto-stop has committed),
then inserts a new open entry with `start = now`, the trimmed task and
notes, and no end or duration.  The returned state records the mutations
committed before any raise. -/
def start_entry (s : Store) (project_name task notes : String) (now : Int) :
    Store × Except String Nat :=
  let stopped : Except String Store :=
    match get_running_entry s with
    | some r => stop_entry s r.id now
    | none => .ok s
  match stopped with
  | .error e => (s, .error e)
  | .ok s1 =>
      match upsert_project s1 project_name with
      | .error e => (s1, .error e)
      | .ok (s2, pid) =>
          let eid := freshId (s2.entries.map (·.id))
          ({ s2 with
             entries := s2.entries ++
               [{ id := eid, project_id := pid, task := strip task, notes := strip notes,
                  start_ts := some now, end_ts := none, duration_s := none }] },
           .ok eid)

/-- `Store.finalize_running_if_any`: stops the running entry when one
exists. -/
def finalize_running_if_any (s : Store) (now : Int) : Except String Store :=
  match get_running_entry s with
  | some r => stop_entry s r.id now
  | none => .ok s

/-- `Store.delete_entry`: unconditional `DELETE ... WHERE id = ?`; a missing
id deletes nothing and is no error. -/
def delete_entry (s : Store) (entry_id : Nat) : Store :=
  { s with entries := s.entries.filter (fun e => ¬ e.id = entry_id) }

/-- `Store.update_entry`: upserts the project first (that insert commits
even if the rest fails), then — only when an end string is supplied —
parses start and end to compute the duration, raising on an unparseable
string before any entry write; finally writes every field of the row with
the given id.  With no end supplied the start string is stored unparsed and
the duration is set to `NULL`.  The end parameter is `none` for Python
`None` (callers pass `None` rather than an empty string). -/
def update_entry (s : Store) (entry_id : Nat) (project_name task notes : String)
    (start_ts : Ts) (end_ts : Option Ts) : Store × Except String Unit :=
  match upsert_project s project_name with
  | .error e => (s, .error e)
  | .ok (s1, pid) =>
      let write (dur : Option Int) : Store :=
        { s1 with
          entries := s1.entries.map (fun x =>
            if x.id = entry_id then
              { x with project_id := pid, task := strip task, notes := strip notes,
                       start_ts := start_ts, end_ts := end_ts, duration_s := dur }
            else x) }
      match end_ts with
      | none => (write none, .ok ())
      | some en =>
          match start_ts, en with
          | some st, some ev => (write (some (ev - st)), .ok ())
          | _, _ => (s1, .error "Invalid isoformat string")

/-- A row of the query projection `SELECT e.id, p.name AS project, e.task,
e.notes, e.start_ts, e.end_ts, e.duration_s`. -/
structure QRow where
  id : Nat
  project : String
  task : String
  notes : String
  start_ts : Ts
  end_ts : Option Ts
  duration_s : Option Int
deriving DecidableEq, Repr

/-- Descending insertion by `start_ts` (for `ORDER BY e.start_ts DESC`;
SQLite leaves the order of ties unspecified). -/
def insert_desc (e : QRow) : List QRow → List QRow
  | [] => [e]
  | x :: xs => if tsLe e.start_ts x.start_ts then x :: insert_desc e xs else e :: x :: xs

/-- Sort rows by `start_ts`, most recent first. -/
def sort_desc (l : List QRow) : List QRow := l.foldr insert_desc []

/-- `Store.query_entries(start_date, end_date, project)`: dates are integer
day numbers; the SQL bounds are `datetime.combine(date, min.time())` and
`datetime.combine(date, max.time())`, i.e. `00:00:00` and
`23:59:59.999999` of the given days — at the second precision of stored
timestamps, seconds `d*86400` and `d*86400 + 86399`.  Selects joined rows
with `start_ts BETWEEN lo AND hi`, optionally (`if project:` — Python
truthiness, so an empty filter string means no filter) restricted to an
exact project-name match, ordered by `start_ts` descending.  No range
validation happens here: an inverted range simply matches nothing. -/
def query_entries (s : Store) (start_date end_date : Int) (project : Option String) :
    List QRow :=
  let lo : Int := start_date * 86400
  let hi : Int := end_date * 86400 + 86399
  let rows := s.entries.filterMap (fun e =>
    match s.projects.find? (fun p => p.id = e.project_id) with
    | none => none
    | some p =>
        if tsLe (some lo) e.start_ts && tsLe e.start_ts (some hi)
            && (match project with
                | none => true
                | some pn => pn = "" || p.name = pn) then
          some ⟨e.id, p.name, e.task, e.notes, e.start_ts, e.end_ts, e.duration_s⟩
        else none)
  sort_desc rows

/-- The `WHERE` clause of `Store.sum_today`:
`start_ts <= end_of_day AND (end_ts IS NULL OR end_ts >= start_of_day)`. -/
def today_filter (start_of_day end_of_day : Int) (e : Entry) : Bool :=
  tsLe e.start_ts (some end_of_day) &&
    (match e.end_ts with
     | none => true
     | some t => tsLe (some start_of_day) t)

/-- The parsed interval of a row in `Store.sum_today`'s loop: start from
`fromisoformat(start_ts)`, end from `fromisoformat(end_ts)` when an end is
stored, else `now`.  `none` models the uncaught `ValueError` on an
unparseable stored string. -/
def entry_interval (now : Int) (e : Entry) : Option (Int × Int) :=
  match e.start_ts with
  | none => none
  | some st =>
      match e.end_ts with
      | none => some (st, now)
      | some none => none
      | some (some en) => some (st, en)

/-- `Store.sum_today`: filters entries overlapping today's window, clamps
each parsed interval to `[start_of_day, end_of_day]` and sums the positive
contributions.  `start_of_day` is midnight of the current day in seconds;
`end_of_day = start_of_day + 86399` (see `query_entries` on
`datetime.max.time()`).  Returns `none` when the loop would raise on an
unparseable stored timestamp. -/
def sum_today (s : Store) (now start_of_day : Int) : Option Int :=
  let end_of_day := start_of_day + 86399
  let rows := s.entries.filter (today_filter start_of_day end_of_day)
  rows.foldl
    (fun acc r =>
      match acc, entry_interval now r with
      | some tot, some (st, en) =>
          let eff_start := max st start_of_day
          let eff_end := min en end_of_day
          some (tot + if eff_start < eff_end then eff_end - eff_start else 0)
      | _, _ => none)
    (some 0)

/-- Modelled from the claim's words, for comparison with `sum_today`: the
sum, over every entry whose interval intersects today's window
(`start <= endOfToday` and (`end` null or `end >= startOfToday`)), of
`max 0 (min end_or_now endOfToday - max start startOfToday)`, an open
entry's end taken as the current time.  Entry fields are read through
`getD`, meaningful under the well-formedness hypothesis of the theorem
comparing the two. -/
def sum_today_spec (s : Store) (now start_of_day : Int) : Int :=
  let end_of_day := start_of_day + 86399
  ((s.entries.filter (today_filter start_of_day end_of_day)).map (fun e =>
      let st := e.start_ts.getD 0
      let en := match e.end_ts with
                | none => now
                | some t => t.getD 0
      max 0 (min en end_of_day - max st start_of_day))).sum

/-- Every stored timestamp of the entry parses: the start string, and the
end string when one is stored. -/
def EntryWf (e : Entry) : Prop :=
  e.start_ts ≠ none ∧ ∀ t, e.end_ts = some t → t ≠ none

/-- Every stored timestamp of the row parses. -/
def QRowWf (r : QRow) : Prop :=
  r.start_ts ≠ none ∧ ∀ t, r.end_ts = some t → t ≠ none

/-- Rendering of a stored timestamp string into a CSV cell.  Under the
identification of canonical ISO strings with their values, `tsRender`
stands for the stored string itself (it is injective on values); the
`none` branch — an unparseable stored string, written out verbatim by the
code — has no canonical rendering in the abstraction and is fixed
arbitrarily. -/
def tsRender : Ts → String
  | some t => toString t
  | none => "invalid"

/-- A nullable end cell: Python's `csv` writes `None` as an empty field. -/
def endRender : Option Ts → String
  | none => ""
  | some t => tsRender t

/-- The cached-or-recomputed duration of `Store.export_csv`'s loop:
`dur = r["duration_s"]`, recomputed as `end - start` when the cache is
`None` but an end is stored (`r["start_ts"]` is a non-empty string, hence
truthy, for every stored row).  The outer `none` models the `ValueError`
raised by `fromisoformat` on an unparseable stored string on that
recomputation path. -/
def export_dur (r : QRow) : Option (Option Int) :=
  match r.duration_s, r.end_ts with
  | none, some en =>
      match r.start_ts, en with
      | some st, some ev => some (some (ev - st))
      | _, _ => none
  | d, _ => some d

/-- One data row written by `Store.export_csv`: the seven cells, the
duration cell through `pretty_duration(int(dur or 0))` (`None` and `0`
both fall to `0`). -/
def export_row (r : QRow) : Option (List String) :=
  match export_dur r with
  | none => none
  | some d =>
      some [toString r.id, r.project, r.task, r.notes,
            tsRender r.start_ts, endRender r.end_ts, pretty_duration (d.getD 0)]

/-- The header row written by `Store.export_csv`. -/
def export_header : List String :=
  ["ID", "Project", "Task", "Notes", "Start", "End", "Duration (h:mm:ss)"]

/-- The body of `Store.export_csv`'s loop over the rows; `none` models a
raise inside the loop. -/
def export_rows_go : List QRow → Option (List (List String))
  | [] => some []
  | r :: rest =>
      match export_row r with
      | none => none
      | some cells =>
          match export_rows_go rest with
          | none => none
          | some out => some (cells :: out)

/-- `Store.export_csv` at the level of rows of cells: the header followed by
one row per entry; `none` models a raise inside the loop. -/
def export_csv (rows : List QRow) : Option (List (List String)) :=
  match export_rows_go rows with
  | none => none
  | some out => some (export_header :: out)

/-- Python `csv`'s QUOTE_MINIMAL test: a field is quoted when it contains
the delimiter, the quote char, or a line break. -/
def needs_quote (s : String) : Bool :=
  s.data.any (fun c => c = ',' || c = '"' || c = '\n' || c = '\r')

/-- Double every quote character (the `csv` escape inside a quoted field). -/
def esc_chars : List Char → List Char
  | [] => []
  | c :: cs => if c = '"' then '"' :: '"' :: esc_chars cs else c :: esc_chars cs

/-- Serialize one field as Python `csv.writer` does with QUOTE_MINIMAL. -/
def csv_field (f : String) : String :=
  if needs_quote f then "\"" ++ String.mk (esc_chars f.data) ++ "\"" else f

/-- Serialize one record: fields joined by the delimiter. -/
def csv_line : List String → String
  | [] => ""
  | [f] => csv_field f
  | f :: rest => csv_field f ++ "," ++ csv_line rest

/-- Scanner state while splitting one serialized record: outside quotes,
inside quotes, or just after a quote character seen inside quotes (which is
a literal quote when doubled and a closing quote otherwise). -/
inductive PState
  | unquoted
  | quoted
  | quoteSeen
deriving DecidableEq, Repr

/-- Field splitter for one serialized record, as Python `csv.reader` scans
it: a quote toggles quoted mode, a doubled quote inside quoted mode is a
literal quote, a delimiter outside quoted mode ends the field. -/
def parse_fields : List Char → PState → List Char → List String → List String
  | [], _, cur, acc => acc ++ [String.mk cur.reverse]
  | c :: rest, .unquoted, cur, acc =>
      if c = '"' then parse_fields rest .quoted cur acc
      else if c = ',' then parse_fields rest .unquoted [] (acc ++ [String.mk cur.reverse])
      else parse_fields rest .unquoted (c :: cur) acc
  | c :: rest, .quoted, cur, acc =>
      if c = '"' then parse_fields rest .quoteSeen cur acc
      else parse_fields rest .quoted (c :: cur) acc
  | c :: rest, .quoteSeen, cur, acc =>
      if c = '"' then parse_fields rest .quoted ('"' :: cur) acc
      else if c = ',' then parse_fields rest .unquoted [] (acc ++ [String.mk cur.reverse])
      else parse_fields rest .unquoted (c :: cur) acc

/-- Parse one serialized record back into its fields. -/
def parse_csv_line (s : String) : List String :=
  parse_fields s.data .unquoted [] []

/-- `TimeTrackerApp.on_start`: the GUI caller of `start_entry`.  It trims
the three fields, refuses an empty project (warning dialog, no store
call), substitutes the literal placeholder `"(untitled)"` for a blank
task, and shows any store error (state as the store left it). -/
def on_start (s : Store) (project task notes : String) (now : Int) :
    Store × Option Nat :=
  let project := strip project
  let task := strip task
  let notes := strip notes
  if project = "" then (s, none)
  else
    let task := if task = "" then "(untitled)" else task
    match start_entry s project task notes now with
    | (s', .ok eid) => (s', some eid)
    | (s', .error _) => (s', none)

/-- The states reachable from a fresh database through the store's
operations, with arbitrary arguments and clock values; an operation that
raises contributes the state it had mutated up to the raise. -/
inductive Reach : Store → Prop
  | init : Reach Store.empty
  | upsert {s s' : Store} {pid : Nat} (n : String) :
      Reach s → upsert_project s n = .ok (s', pid) → Reach s'
  | start {s : Store} (pn t no : String) (now : Int) :
      Reach s → Reach (start_entry s pn t no now).1
  | stop {s s' : Store} (eid : Nat) (now : Int) :
      Reach s → stop_entry s eid now = .ok s' → Reach s'
  | finalize {s s' : Store} (now : Int) :
      Reach s → finalize_running_if_any s now = .ok s' → Reach s'
  | update {s : Store} (eid : Nat) (pn t no : String) (st : Ts) (en : Option Ts) :
      Reach s → Reach (update_entry s eid pn t no st en).1
  | del {s : Store} (eid : Nat) :
      Reach s → Reach (delete_entry s eid)

/-- The closed-entry invariant of the data model: an entry with a stored
end has a parseable start and end and a cached duration equal to
`end - start` in whole seconds. -/
def EntryOk (e : Entry) : Prop :=
  ∀ ts, e.end_ts = some ts →
    ∃ st en, e.start_ts = some st ∧ ts = some en ∧ e.duration_s = some (en - st)

/-- The store-wide closed-entry invariant. -/
def Inv (s : Store) : Prop := ∀ e ∈ s.entries, EntryOk e

/-! ### Concrete example states used by counterexamples and witnesses -/

/-- A project row. -/
def exProject : Project := ⟨1, "acme"⟩

/-- An open entry of `exProject`, started at second 1000. -/
def exOpen : Entry :=
  { id := 1, project_id := 1, task := "write", notes := "draft",
    start_ts := some 1000, end_ts := none, duration_s := none }

/-- A closed entry: 100 → 300, cached duration 200. -/
def exClosed : Entry :=
  { id := 1, project_id := 1, task := "write", notes := "",
    start_ts := some 100, end_ts := some (some 300), duration_s := some 200 }

/-- A store holding one running entry. -/
def exStoreOpen : Store := ⟨[exProject], [exOpen]⟩

/-- A store holding one closed entry. -/
def exStoreClosed : Store := ⟨[exProject], [exClosed]⟩

/-- A store whose single entry spans yesterday 23:00 to today 01:00 when
today starts at second 86400. -/
def exStoreMidnight : Store :=
  ⟨[exProject],
   [{ id := 1, project_id := 1, task := "t", notes := "",
      start_ts := some 82800, end_ts := some (some 90000), duration_s := some 7200 }]⟩

/-! ### Helper lemmas -/

theorem upsert_preserves_entries {s s' : Store} {n : String} {pid : Nat}
    (h : upsert_project s n = .ok (s', pid)) : s'.entries = s.entries := by
  simp only [upsert_project] at h
  split at h
  · exact absurd h (by simp)
  · split at h
    · simp only [Except.ok.injEq, Prod.mk.injEq] at h
      rw [← h.1]
    · simp only [Except.ok.injEq, Prod.mk.injEq] at h
      rw [← h.1]

theorem upsert_ok_of_nonempty {s : Store} {n : String} (h : ¬ strip n = "") :
    ∃ s' pid, upsert_project s n = .ok (s', pid) := by
  simp only [upsert_project, if_neg h]
  cases hf : s.projects.find? (fun p => p.name = strip n) with
  | none => exact ⟨_, _, rfl⟩
  | some p => exact ⟨_, _, rfl⟩

theorem upsert_pid_mem {s s' : Store} {n : String} {pid : Nat}
    (h : upsert_project s n = .ok (s', pid)) :
    s'.projects.any (fun p => p.id = pid) = true := by
  simp only [upsert_project] at h
  split at h
  · exact absurd h (by simp)
  · rename_i hne
    split at h
    · rename_i p hf
      simp only [Except.ok.injEq, Prod.mk.injEq] at h
      obtain ⟨hs, hpid⟩ := h
      subst hs
      rw [List.any_eq_true]
      exact ⟨p, List.mem_of_find?_eq_some hf, by simp [hpid]⟩
    · simp only [Except.ok.injEq, Prod.mk.injEq] at h
      obtain ⟨hs, hpid⟩ := h
      subst hs
      rw [List.any_eq_true]
      exact ⟨⟨pid, strip n⟩, by simp [← hpid], by simp⟩

theorem le_foldr_max {ids : List Nat} {i : Nat} (h : i ∈ ids) : i ≤ ids.foldr max 0 := by
  induction ids with
  | nil => cases h
  | cons a l ih =>
      rcases List.mem_cons.mp h with rfl | hl
      · exact Nat.le_max_left _ _
      · exact Nat.le_trans (ih hl) (Nat.le_max_right _ _)

theorem lt_freshId {ids : List Nat} {i : Nat} (h : i ∈ ids) : i < freshId ids :=
  Nat.lt_succ_of_le (le_foldr_max h)

theorem find?_id_of_nodup {l : List Entry}
    (hnd : (l.map (fun e => e.id)).Nodup) {A : Entry} (hA : A ∈ l) :
    l.find? (fun e => e.id = A.id) = some A := by
  induction l with
  | nil => cases hA
  | cons x l ih =>
      rw [List.find?_cons]
      by_cases hx : x.id = A.id
      · have hAx : A = x := by
          rcases List.mem_cons.mp hA with rfl | hmem
          · rfl
          · exfalso
            apply (List.nodup_cons.mp hnd).1
            show x.id ∈ l.map (fun e => e.id)
            rw [hx]
            exact List.mem_map.mpr ⟨A, hmem, rfl⟩
        subst hAx
        simp
      · have hmem : A ∈ l := by
          rcases List.mem_cons.mp hA with rfl | hmem
          · exact absurd rfl hx
          · exact hmem
        have := ih (List.nodup_cons.mp hnd).2 hmem
        simp [hx, this]

theorem start_entry_ok_new_row {s s' : Store} {pn t no : String} {now : Int} {eid : Nat}
    (h : start_entry s pn t no now = (s', .ok eid)) :
    ∃ e ∈ s'.entries, e.id = eid ∧ e.task = strip t ∧ e.notes = strip no ∧
      e.start_ts = some now ∧ e.end_ts = none ∧ e.duration_s = none := by
  simp only [start_entry] at h
  split at h
  · simp only [Prod.mk.injEq] at h
    exact absurd h.2 (by simp)
  · rename_i s1 hs1
    split at h
    · simp only [Prod.mk.injEq] at h
      exact absurd h.2 (by simp)
    · rename_i pr hup
      simp only [Prod.mk.injEq, Except.ok.injEq] at h
      obtain ⟨hs, heid⟩ := h
      subst hs
      subst heid
      exact ⟨_, List.mem_append_right _ (List.mem_singleton_self _),
        rfl, rfl, rfl, rfl, rfl, rfl⟩

/-! ### C7 — range validation in `query_entries` -/

/-- C7 counterexample: `query_entries` with an inverted range (start day 5,
end day 3) on a store with an entry is not rejected: it returns the empty
list, with no error of any kind (the model of `Store.query_entries` is a
total function — the code has no validation path). -/
theorem C7_counterexample : query_entries exStoreClosed 5 3 none = [] := by decide

/-- C7 amended: `Store.query_entries` performs no range validation; for
every inverted range (`rangeEnd < rangeStart`) it returns the empty list
(the `BETWEEN` clause matches nothing), rather than reporting a validation
error.  The range check the spec describes lives in the GUI caller
(`_refresh_table`), not in the store. -/
theorem C7_inverted_range_returns_empty (s : Store) (d1 d2 : Int) (p : Option String)
    (h : d2 < d1) : query_entries s d1 d2 p = [] := by
  have hlt : d2 * 86400 + 86399 < d1 * 86400 := by omega
  simp only [query_entries]
  rw [List.filterMap_eq_nil_iff.mpr]
  · rfl
  · intro e he
    cases hf : s.projects.find? (fun p2 => p2.id = e.project_id) with
    | none => simp
    | some pr =>
        simp only
        split
        · rename_i hcond
          exfalso
          simp only [Bool.and_eq_true] at hcond
          obtain ⟨⟨h1, h2⟩, -⟩ := hcond
          cases hst : e.start_ts with
          | none => rw [hst] at h1; simp [tsLe] at h1
          | some v =>
              rw [hst] at h1 h2
              simp only [tsLe, decide_eq_true_eq] at h1 h2
              omega
        · rfl

/-- C7 witness for the amended theorem at a concrete inverted range. -/
theorem C7_witness :
    (2 : Int) < 10 ∧ query_entries exStoreOpen 10 2 (some "acme") = [] :=
  ⟨by decide, C7_inverted_range_returns_empty exStoreOpen 10 2 (some "acme") (by decide)⟩

/-! ### C2 — `stop_entry` on missing and on already-closed ids -/

/-- The store `exStoreClosed` after re-stopping its closed entry at second
500: the end is overwritten with 500 and the duration recomputed to 400. -/
def exStoreReStopped : Store :=
  ⟨[exProject],
   [{ id := 1, project_id := 1, task := "write", notes := "",
      start_ts := some 100, end_ts := some (some 500), duration_s := some 400 }]⟩

/-- C2 counterexample: stopping an already-closed entry (id 1, closed at
second 300) at second 500 is not a no-op: the call succeeds and overwrites
the entry's end with 500 and its duration with 400, changing the state
(`Store.stop_entry` selects the row by id without checking `end_ts`). -/
theorem C2_counterexample :
    stop_entry exStoreClosed 1 500 = .ok exStoreReStopped ∧ exStoreReStopped ≠ exStoreClosed :=
  ⟨rfl, by decide⟩

/-- C2 amended: `stop_entry` is a silent no-op when the id does not exist in
the store; but when the entry exists (open or already closed) with a
parseable start, it unconditionally re-closes it: `end_ts` is overwritten
with the current time and `duration_s` recomputed as `now - start`. -/
theorem C2_stop_missing_noop_restop_closed :
    (∀ (s : Store) (eid : Nat) (now : Int),
        s.entries.find? (fun e => e.id = eid) = none → stop_entry s eid now = .ok s)
    ∧ (∀ (s : Store) (eid : Nat) (now st : Int) (e : Entry),
        s.entries.find? (fun e2 => e2.id = eid) = some e → e.start_ts = some st →
        stop_entry s eid now = .ok
          { s with entries := s.entries.map (fun x =>
              if x.id = eid then
                { x with end_ts := some (some now), duration_s := some (now - st) }
              else x) }) := by
  constructor
  · intro s eid now hf
    simp only [stop_entry, hf]
  · intro s eid now st e hf hst
    simp only [stop_entry, hf, hst]

/-- C2 witness: the amended theorem applied to the concrete closed entry and
to a store without the requested id. -/
theorem C2_witness :
    stop_entry exStoreClosed 2 500 = .ok exStoreClosed ∧
    stop_entry exStoreClosed 1 500 = .ok
      { exStoreClosed with entries := exStoreClosed.entries.map (fun x =>
          if x.id = 1 then
            { x with end_ts := some (some 500), duration_s := some (500 - 100) }
          else x) } :=
  ⟨C2_stop_missing_noop_restop_closed.1 exStoreClosed 2 500 (by decide),
   C2_stop_missing_noop_restop_closed.2 exStoreClosed 1 500 100 exClosed (by decide) (by decide)⟩

/-! ### C8 — placeholder task substitution -/

/-- C8 counterexample: `Store.start_entry` called with a blank task creates
the entry with the empty task string, not with a placeholder. -/
theorem C8_counterexample :
    ((start_entry Store.empty "acme" "   " "note" 1000).1.entries.map (fun e => e.task)) = [""]
      ∧ ("" : String) ≠ "(untitled)" := by
  constructor
  · rfl
  · decide

/-- C8 amended: `Store.start_entry` stores the stripped task verbatim (empty
when the task is blank); the literal placeholder `"(untitled)"` is
substituted for a blank task by the GUI caller `on_start` before it invokes
the store. -/
theorem C8_task_placeholder_in_caller :
    (∀ (s : Store) (pn t no : String) (now : Int) (eid : Nat) (s' : Store),
        start_entry s pn t no now = (s', .ok eid) →
        ∃ e ∈ s'.entries, e.id = eid ∧ e.task = strip t)
    ∧ (∀ (s : Store) (pn t no : String) (now : Int) (eid : Nat),
        strip t = "" → (on_start s pn t no now).2 = some eid →
        ∃ e ∈ (on_start s pn t no now).1.entries, e.id = eid ∧ e.task = "(untitled)") := by
  constructor
  · intro s pn t no now eid s' h
    obtain ⟨e, hmem, hid, htask, -⟩ := start_entry_ok_new_row h
    exact ⟨e, hmem, hid, htask⟩
  · intro s pn t no now eid ht h
    have ht' : (if strip t = "" then "(untitled)" else strip t) = "(untitled)" := if_pos ht
    by_cases hpn : strip pn = ""
    · simp [on_start, hpn] at h
    · cases hcall : start_entry s (strip pn) "(untitled)" (strip no) now with
      | mk s' res =>
          cases res with
          | ok eid' =>
              simp only [on_start, ht', if_neg hpn, hcall] at h ⊢
              obtain ⟨e, hmem, hid, htask, -⟩ := start_entry_ok_new_row hcall
              simp only [Option.some.injEq] at h
              subst h
              exact ⟨e, hmem, hid, by rw [htask]; rfl⟩
          | error msg =>
              simp [on_start, ht', if_neg hpn, hcall] at h

/-- C8 witness: applying the amended theorem to concrete calls. -/
theorem C8_witness :
    (∃ e ∈ (⟨[⟨1, "acme"⟩], [⟨1, 1, "read", "", some 7, none, none⟩]⟩ : Store).entries,
        e.id = 1 ∧ e.task = strip " read ")
    ∧ (∃ e ∈ (on_start Store.empty "acme" "  " "" 7).1.entries,
        e.id = 1 ∧ e.task = "(untitled)") :=
  ⟨C8_task_placeholder_in_caller.1 Store.empty "acme" " read " "" 7 1 _ rfl,
   C8_task_placeholder_in_caller.2 Store.empty "acme" "  " "" 7 1 rfl (by decide)⟩

/-! ### C10 — export of open entries -/

/-- C10 confirmed: a row with no end and no cached duration is exported with
an empty End cell and Duration `00:00:00`; neither the current time nor the
elapsed time is substituted (`export_row` takes no clock at all). -/
theorem C10_open_row_exports_zero (r : QRow) (hend : r.end_ts = none)
    (hdur : r.duration_s = none) :
    export_row r = some [toString r.id, r.project, r.task, r.notes,
      tsRender r.start_ts, "", "00:00:00"] := by
  simp only [export_row, export_dur, hend, hdur, endRender]
  rfl

/-- C10 witness at a concrete open row. -/
theorem C10_witness :
    export_row { id := 7, project := "acme", task := "write", notes := "",
                 start_ts := some 1000, end_ts := none, duration_s := none } =
      some ["7", "acme", "write", "", tsRender (some 1000), "", "00:00:00"] :=
  C10_open_row_exports_zero _ rfl rfl

/-! ### C5 — validation in `update_entry` -/

/-- C5 counterexample: `update_entry` with an unparseable start and no end
does not fail — it succeeds and writes the unparsed start into the row
(`Store.update_entry` only parses the timestamps inside `if end_ts:`, so a
bad start with no end is never validated). -/
theorem C5_counterexample :
    (update_entry exStoreClosed 1 "acme" "t" "n" none none).2 = .ok ()
      ∧ ∃ e ∈ (update_entry exStoreClosed 1 "acme" "t" "n" none none).1.entries,
          e.start_ts = none :=
  ⟨rfl, by decide⟩

/-- C5 amended: `update_entry` fails with a `ValueError` when an end is
provided and either the start or the end is unparseable; but when no end is
provided no timestamp is parsed at all: given a non-blank project name the
call succeeds, storing the start verbatim with `end = NULL` and
`duration = NULL`; and with parseable start and end (and a non-blank
project) it succeeds and writes all fields with
`duration = end - start`. -/
theorem C5_update_validation :
    (∀ (s : Store) (eid : Nat) (pn t no : String) (stv env : Ts),
        stv = none ∨ env = none →
        ∃ m, (update_entry s eid pn t no stv (some env)).2 = .error m)
    ∧ (∀ (s : Store) (eid : Nat) (pn t no : String) (stv : Ts),
        ¬ strip pn = "" →
        ∃ s1 pid, upsert_project s pn = .ok (s1, pid) ∧
          update_entry s eid pn t no stv none =
            ({ s1 with entries := s1.entries.map (fun x =>
                if x.id = eid then
                  { x with project_id := pid, task := strip t, notes := strip no,
                           start_ts := stv, end_ts := none, duration_s := none }
                else x) }, .ok ()))
    ∧ (∀ (s : Store) (eid : Nat) (pn t no : String) (sv ev : Int),
        ¬ strip pn = "" →
        ∃ s1 pid, upsert_project s pn = .ok (s1, pid) ∧
          update_entry s eid pn t no (some sv) (some (some ev)) =
            ({ s1 with entries := s1.entries.map (fun x =>
                if x.id = eid then
                  { x with project_id := pid, task := strip t, notes := strip no,
                           start_ts := some sv, end_ts := some (some ev),
                           duration_s := some (ev - sv) }
                else x) }, .ok ())) := by
  refine ⟨?_, ?_, ?_⟩
  · intro s eid pn t no stv env hbad
    cases hup : upsert_project s pn with
    | error m => exact ⟨m, by simp [update_entry, hup]⟩
    | ok pr =>
        obtain ⟨s1, pid⟩ := pr
        rcases hbad with rfl | rfl
        · exact ⟨"Invalid isoformat string", by cases env <;> simp [update_entry, hup]⟩
        · exact ⟨"Invalid isoformat string", by cases stv <;> simp [update_entry, hup]⟩
  · intro s eid pn t no stv hpn
    obtain ⟨s1, pid, hup⟩ := upsert_ok_of_nonempty hpn
    exact ⟨s1, pid, hup, by simp [update_entry, hup]⟩
  · intro s eid pn t no sv ev hpn
    obtain ⟨s1, pid, hup⟩ := upsert_ok_of_nonempty hpn
    exact ⟨s1, pid, hup, by simp [update_entry, hup]⟩

/-- C5 witness: the amended theorem at concrete inputs (bad end provided;
no end provided; both timestamps parseable). -/
theorem C5_witness :
    (∃ m, (update_entry exStoreClosed 1 "acme" "t" "n" (some 5) (some none)).2 = .error m)
    ∧ (∃ s1 pid, upsert_project exStoreClosed "acme" = .ok (s1, pid) ∧
        update_entry exStoreClosed 1 "acme" "t" "n" (some 5) none =
          ({ s1 with entries := s1.entries.map (fun x =>
              if x.id = 1 then
                { x with project_id := pid, task := strip "t", notes := strip "n",
                         start_ts := some 5, end_ts := none, duration_s := none }
              else x) }, .ok ()))
    ∧ (∃ s1 pid, upsert_project exStoreClosed "acme" = .ok (s1, pid) ∧
        update_entry exStoreClosed 1 "acme" "t" "n" (some 5) (some (some 65)) =
          ({ s1 with entries := s1.entries.map (fun x =>
              if x.id = 1 then
                { x with project_id := pid, task := strip "t", notes := strip "n",
                         start_ts := some 5, end_ts := some (some 65),
                         duration_s := some (65 - 5) }
              else x) }, .ok ())) :=
  ⟨C5_update_validation.1 exStoreClosed 1 "acme" "t" "n" (some 5) none (Or.inr rfl),
   C5_update_validation.2.1 exStoreClosed 1 "acme" "t" "n" (some 5) (by decide),
   C5_update_validation.2.2 exStoreClosed 1 "acme" "t" "n" 5 65 (by decide)⟩

/-! ### C4 — state left behind by failed validations -/

/-- C4 counterexample: `start_entry` with an empty project name while an
entry is running raises the validation error only after the auto-close has
committed: the call errors, yet the store has changed (the running entry is
now closed). -/
theorem C4_counterexample :
    (start_entry exStoreOpen "" "t" "n" 2000).2 = .error "Project name cannot be empty"
      ∧ (start_entry exStoreOpen "" "t" "n" 2000).1 ≠ exStoreOpen :=
  ⟨rfl, by decide⟩

/-- C4 amended: a call that fails validation performs no further mutation,
but mutations already committed earlier in the same call survive: with no
running entry, `start_entry` with a blank project name leaves the store
exactly unchanged; with a running entry it leaves behind precisely the
auto-closed state; and `update_entry` with an unparseable timestamp never
touches any entry row (though its project upsert may have committed). -/
theorem C4_failed_validation_state :
    (∀ (s : Store) (pn t no : String) (now : Int),
        get_running_entry s = none → strip pn = "" →
        start_entry s pn t no now = (s, .error "Project name cannot be empty"))
    ∧ (∀ (s s1 : Store) (pn t no : String) (now : Int) (r : Entry),
        get_running_entry s = some r → stop_entry s r.id now = .ok s1 → strip pn = "" →
        start_entry s pn t no now = (s1, .error "Project name cannot be empty"))
    ∧ (∀ (s : Store) (eid : Nat) (pn t no : String) (stv env : Ts),
        stv = none ∨ env = none →
        (update_entry s eid pn t no stv (some env)).1.entries = s.entries) := by
  refine ⟨?_, ?_, ?_⟩
  · intro s pn t no now hrun hpn
    simp [start_entry, hrun, upsert_project, hpn]
  · intro s s1 pn t no now r hrun hstop hpn
    simp [start_entry, hrun, hstop, upsert_project, hpn]
  · intro s eid pn t no stv env hbad
    cases hup : upsert_project s pn with
    | error m => simp [update_entry, hup]
    | ok pr =>
        obtain ⟨s1, pid⟩ := pr
        have hent := upsert_preserves_entries hup
        rcases hbad with rfl | rfl
        · cases env <;> simp [update_entry, hup, hent]
        · cases stv <;> simp [update_entry, hup, hent]

/-- C4 witness: the amended theorem at concrete inputs. -/
theorem C4_witness :
    start_entry exStoreClosed "" "t" "n" 2000 = (exStoreClosed, .error "Project name cannot be empty")
    ∧ start_entry exStoreOpen "" "t" "n" 2000 =
        (⟨[exProject],
          [{ id := 1, project_id := 1, task := "write", notes := "draft",
             start_ts := some 1000, end_ts := some (some 2000), duration_s := some 1000 }]⟩,
         .error "Project name cannot be empty")
    ∧ (update_entry exStoreOpen 1 "newproj" "t" "n" none (some (some 9))).1.entries
        = exStoreOpen.entries :=
  ⟨C4_failed_validation_state.1 exStoreClosed "" "t" "n" 2000 (by decide) (by decide),
   C4_failed_validation_state.2.1 exStoreOpen _ "" "t" "n" 2000 exOpen (by decide) rfl (by decide),
   C4_failed_validation_state.2.2 exStoreOpen 1 "newproj" "t" "n" none (some 9) (Or.inl rfl)⟩

/-! ### C1 — auto-close on start -/

theorem filter_and_singleton {α : Type} {q p : α → Bool} {l : List α} {A : α}
    (hq : l.filter q = [A]) (hp : p A = true) :
    l.filter (fun e => q e && p e) = [A] := by
  induction l with
  | nil => simp at hq
  | cons x xs ih =>
      by_cases hx : q x = true
      · rw [List.filter_cons_of_pos hx] at hq
        injection hq with hxA htail
        subst hxA
        rw [List.filter_cons_of_pos (by rw [hx, hp]; rfl)]
        have : xs.filter (fun e => q e && p e) = [] := by
          rw [List.filter_eq_nil_iff]
          intro e he
          have hqe : ¬ q e = true := List.filter_eq_nil_iff.mp htail e he
          simp [hqe]
        rw [this]
      · rw [List.filter_cons_of_neg hx] at hq
        rw [List.filter_cons_of_neg (by simp [hx])]
        exact ih hq

/-- C1 confirmed (under the data-model invariant the claim quantifies over:
`A` is the single open entry, its start parses, the store's ids are unique,
and the project name is non-blank so the call succeeds):
`start_entry` first closes `A` — its end becomes the current time and its
duration `now - A.start`, which equals `B.start - A.start` since the new
entry `B` is created with `start = now` — then inserts `B` open; afterwards
`B` is the unique open entry and `get_running_entry` returns it. -/
theorem C1_start_auto_closes (s : Store) (A : Entry) (ast : Int) (pn t no : String)
    (now : Int)
    (hopen : open_entries s = [A])
    (hast : A.start_ts = some ast)
    (hproj : s.projects.any (fun p => p.id = A.project_id) = true)
    (hids : (s.entries.map (fun e => e.id)).Nodup)
    (hpn : ¬ strip pn = "") :
    ∃ s' bid pid,
      start_entry s pn t no now = (s', .ok bid) ∧
      (∀ x ∈ s'.entries, x.id = A.id →
          x.end_ts = some (some now) ∧ x.duration_s = some (now - ast)) ∧
      open_entries s' =
        [{ id := bid, project_id := pid, task := strip t, notes := strip no,
           start_ts := some now, end_ts := none, duration_s := none }] ∧
      get_running_entry s' =
        some { id := bid, project_id := pid, task := strip t, notes := strip no,
               start_ts := some now, end_ts := none, duration_s := none } := by
  have hopen' : s.entries.filter (fun e => e.end_ts = none) = [A] := hopen
  have hAfilter : A ∈ s.entries.filter (fun e => e.end_ts = none) := by
    rw [hopen']
    exact List.mem_singleton_self _
  have hAmem : A ∈ s.entries := (List.mem_filter.mp hAfilter).1
  have honly : ∀ e ∈ s.entries, e.end_ts = none → e = A := by
    intro e he hoe
    have hmem : e ∈ s.entries.filter (fun e2 => e2.end_ts = none) :=
      List.mem_filter.mpr ⟨he, by simp [hoe]⟩
    rw [hopen'] at hmem
    simpa using hmem
  have hfilterJoin :
      s.entries.filter
        (fun e => e.end_ts = none && s.projects.any (fun p => p.id = e.project_id)) = [A] :=
    filter_and_singleton hopen' hproj
  have hrun : get_running_entry s = some A := by
    unfold get_running_entry
    rw [hfilterJoin]
    rfl
  have hstop : stop_entry s A.id now =
      .ok { s with entries := s.entries.map (fun x =>
        if x.id = A.id then
          { x with end_ts := some (some now), duration_s := some (now - ast) }
        else x) } := by
    simp only [stop_entry, find?_id_of_nodup hids hAmem, hast]
  obtain ⟨s2, pid, hup⟩ := upsert_ok_of_nonempty
    (s := { s with entries := s.entries.map (fun x =>
      if x.id = A.id then
        { x with end_ts := some (some now), duration_s := some (now - ast) }
      else x) }) hpn
  have hents : s2.entries = s.entries.map (fun x =>
      if x.id = A.id then
        { x with end_ts := some (some now), duration_s := some (now - ast) }
      else x) := upsert_preserves_entries hup
  have hAid_lt : A.id < freshId (s2.entries.map (fun e => e.id)) := by
    apply lt_freshId
    rw [hents]
    rw [List.map_map]
    apply List.mem_map.mpr
    refine ⟨A, hAmem, ?_⟩
    simp
  have hclosed : s2.entries.filter (fun e => e.end_ts = none) = [] := by
    rw [List.filter_eq_nil_iff]
    intro x hx
    rw [hents] at hx
    obtain ⟨y, hy, rfl⟩ := List.mem_map.mp hx
    by_cases hyid : y.id = A.id
    · simp [if_pos hyid]
    · rw [if_neg hyid]
      simp only [decide_eq_true_eq]
      intro hcon
      exact hyid (by rw [honly y hy hcon])
  set bid := freshId (s2.entries.map (fun e => e.id)) with hbid
  set B : Entry := { id := bid, project_id := pid, task := strip t, notes := strip no,
                     start_ts := some now, end_ts := none, duration_s := none } with hBdef
  have hcall : start_entry s pn t no now = ({ s2 with entries := s2.entries ++ [B] }, .ok bid) := by
    simp only [start_entry, hrun, hstop, hup]
  refine ⟨_, bid, pid, hcall, ?_, ?_, ?_⟩
  · intro x hx hxid
    rcases List.mem_append.mp hx with hx1 | hx2
    · rw [hents] at hx1
      obtain ⟨y, hy, rfl⟩ := List.mem_map.mp hx1
      by_cases hyid : y.id = A.id
      · rw [if_pos hyid]
        exact ⟨rfl, rfl⟩
      · rw [if_neg hyid] at hxid ⊢
        exact absurd hxid hyid
    · have hxB := List.mem_singleton.mp hx2
      subst hxB
      have hba : bid = A.id := hxid
      omega
  · change (s2.entries ++ [B]).filter (fun e => e.end_ts = none) = [B]
    rw [List.filter_append, hclosed]
    rfl
  · change ((s2.entries ++ [B]).filter
        (fun e => e.end_ts = none && s2.projects.any (fun p => p.id = e.project_id))).foldl
        (fun acc e => match acc with
          | none => some e
          | some a => if tsLe e.start_ts a.start_ts then some a else some e) none = some B
    have hfil : (s2.entries ++ [B]).filter
        (fun e => e.end_ts = none && s2.projects.any (fun p => p.id = e.project_id)) = [B] := by
      rw [List.filter_append]
      have h1 : s2.entries.filter
          (fun e => e.end_ts = none && s2.projects.any (fun p => p.id = e.project_id)) = [] := by
        rw [List.filter_eq_nil_iff]
        intro x hx
        have hcl : ¬ (decide (x.end_ts = none) = true) :=
          List.filter_eq_nil_iff.mp hclosed x hx
        simp only [Bool.and_eq_true]
        intro hcon
        exact hcl hcon.1
      rw [h1]
      have h2 : s2.projects.any (fun p => p.id = pid) = true := upsert_pid_mem hup
      simp [hBdef, h2]
    rw [hfil]
    rfl

/-- C1 witness: the theorem applied to a concrete store holding one running
entry (started at 1000) and a `start_entry` call at 2000. -/
theorem C1_witness :
    ∃ s' bid pid,
      start_entry exStoreOpen "acme" " t2 " "" 2000 = (s', .ok bid) ∧
      (∀ x ∈ s'.entries, x.id = exOpen.id →
          x.end_ts = some (some 2000) ∧ x.duration_s = some (2000 - 1000)) ∧
      open_entries s' =
        [{ id := bid, project_id := pid, task := strip " t2 ", notes := strip "",
           start_ts := some 2000, end_ts := none, duration_s := none }] ∧
      get_running_entry s' =
        some { id := bid, project_id := pid, task := strip " t2 ", notes := strip "",
               start_ts := some 2000, end_ts := none, duration_s := none } :=
  C1_start_auto_closes exStoreOpen exOpen 1000 "acme" " t2 " "" 2000
    rfl rfl (by decide) (by decide) (by decide)

/-! ### C3 — `sum_today` against the claim's formula -/

theorem if_lt_sub_eq_max (a b : Int) : (if a < b then b - a else 0) = max 0 (b - a) := by
  rcases lt_or_le a b with h | h
  · rw [if_pos h, max_eq_right (by omega : (0 : Int) ≤ b - a)]
  · rw [if_neg (not_lt.mpr h), max_eq_left (by omega : b - a ≤ (0 : Int))]

theorem sum_today_fold (now sod eod : Int) (l : List Entry)
    (hwf : ∀ e ∈ l, EntryWf e) (init : Int) :
    l.foldl
      (fun acc r =>
        match acc, entry_interval now r with
        | some tot, some (st, en) =>
            let eff_start := max st sod
            let eff_end := min en eod
            some (tot + if eff_start < eff_end then eff_end - eff_start else 0)
        | _, _ => none)
      (some init)
    = some (init + (l.map (fun e =>
        let st := e.start_ts.getD 0
        let en := match e.end_ts with
                  | none => now
                  | some t2 => t2.getD 0
        max 0 (min en eod - max st sod))).sum) := by
  induction l generalizing init with
  | nil => simp
  | cons x xs ih =>
      obtain ⟨hst, hen⟩ := hwf x (List.mem_cons_self _ _)
      have hwf' : ∀ e ∈ xs, EntryWf e := fun e he => hwf e (List.mem_cons_of_mem _ he)
      rcases hxs : x.start_ts with _ | st
      · exact absurd hxs hst
      · rcases hxe : x.end_ts with _ | t2
        · have hint : entry_interval now x = some (st, now) := by
            simp [entry_interval, hxs, hxe]
          simp only [List.foldl_cons, hint, List.map_cons, List.sum_cons, hxs, hxe,
            Option.getD_some]
          rw [ih hwf']
          rw [if_lt_sub_eq_max, add_assoc]
        · rcases t2 with _ | en
          · exact absurd rfl (hen none hxe)
          · have hint : entry_interval now x = some (st, en) := by
              simp [entry_interval, hxs, hxe]
            simp only [List.foldl_cons, hint, List.map_cons, List.sum_cons, hxs, hxe,
              Option.getD_some]
            rw [ih hwf']
            rw [if_lt_sub_eq_max, add_assoc]

/-- C3 confirmed: on every store whose stored timestamps parse, `sum_today`
equals the claim's formula — the sum over every entry intersecting today's
window (`start <= endOfToday` and (`end` null or `end >= startOfToday`)) of
`max 0 (min end_or_now endOfToday - max start startOfToday)`, an open
entry's end taken as `now`; and the single entry spanning yesterday 23:00
to today 01:00 contributes exactly 3600 seconds. -/
theorem C3_sum_today_correct :
    (∀ (s : Store) (now sod : Int), (∀ e ∈ s.entries, EntryWf e) →
        sum_today s now sod = some (sum_today_spec s now sod))
    ∧ sum_today exStoreMidnight 100000 86400 = some 3600 := by
  constructor
  · intro s now sod hwf
    simp only [sum_today, sum_today_spec]
    rw [sum_today_fold now sod (sod + 86399) _
      (fun e he => hwf e (List.mem_of_mem_filter he)) 0]
    rw [zero_add]
  · decide

/-- C3 witness: the refinement applied to the concrete midnight-spanning
store (whose timestamps all parse). -/
theorem C3_witness :
    sum_today exStoreMidnight 100000 86400 =
      some (sum_today_spec exStoreMidnight 100000 86400) :=
  C3_sum_today_correct.1 exStoreMidnight 100000 86400 (by
    intro e he
    rcases List.mem_singleton.mp he with rfl
    exact ⟨by decide, by intro t ht; cases ht; decide⟩)

/-! ### C6 — the closed-entry duration invariant over all reachable states -/

theorem stop_entry_preserves {s s' : Store} {eid : Nat} {now : Int}
    (hinv : Inv s) (hnd : (s.entries.map (fun e => e.id)).Nodup)
    (h : stop_entry s eid now = .ok s') :
    Inv s' ∧ (s'.entries.map (fun e => e.id)).Nodup := by
  simp only [stop_entry] at h
  split at h
  · injection h with h2
    subst h2
    exact ⟨hinv, hnd⟩
  · rename_i e hfind
    split at h
    · exact absurd h (by simp)
    · rename_i st hstart
      injection h with h2
      subst h2
      constructor
      · intro x hx
        obtain ⟨y, hy, rfl⟩ := List.mem_map.mp hx
        by_cases hyid : y.id = eid
        · have heq : y = e := by
            have hee : e ∈ s.entries := List.mem_of_find?_eq_some hfind
            have heid : e.id = eid := by simpa using List.find?_some hfind
            exact List.inj_on_of_nodup_map hnd hy hee (by rw [hyid, heid])
          subst heq
          rw [if_pos hyid]
          intro ts hts
          cases hts
          exact ⟨st, now, hstart, rfl, rfl⟩
        · rw [if_neg hyid]
          exact hinv y hy
      · have hid : (s.entries.map (fun x =>
            if x.id = eid then
              { x with end_ts := some (some now), duration_s := some (now - st) }
            else x)).map (fun e2 => e2.id) = s.entries.map (fun e2 => e2.id) := by
          rw [List.map_map]
          apply List.map_congr_left
          intro a ha
          by_cases haid : a.id = eid <;> simp [haid]
        rw [hid]
        exact hnd

theorem start_entry_preserves {s : Store} (pn t no : String) (now : Int)
    (hinv : Inv s) (hnd : (s.entries.map (fun e => e.id)).Nodup) :
    Inv (start_entry s pn t no now).1
      ∧ ((start_entry s pn t no now).1.entries.map (fun e => e.id)).Nodup := by
  simp only [start_entry]
  cases hrun : get_running_entry s with
  | none =>
      simp only
      cases hup : upsert_project s pn with
      | error m => exact ⟨hinv, hnd⟩
      | ok pr =>
          obtain ⟨s2, pid⟩ := pr
          have hents := upsert_preserves_entries hup
          simp only
          constructor
          · intro x hx
            rcases List.mem_append.mp hx with hx1 | hx2
            · exact hinv x (hents ▸ hx1)
            · rw [List.mem_singleton.mp hx2]
              intro ts hts
              cases hts
          · rw [List.map_append, List.nodup_append]
            refine ⟨by rw [hents]; exact hnd, List.nodup_singleton _, ?_⟩
            intro a ha hb
            have hab : a = freshId (s2.entries.map (fun e => e.id)) := by simpa using hb
            have hlt : a < freshId (s2.entries.map (fun e => e.id)) := lt_freshId ha
            omega
  | some r =>
      simp only
      cases hstop : stop_entry s r.id now with
      | error m => exact ⟨hinv, hnd⟩
      | ok s1 =>
          obtain ⟨hinv1, hnd1⟩ := stop_entry_preserves hinv hnd hstop
          simp only
          cases hup : upsert_project s1 pn with
          | error m => exact ⟨hinv1, hnd1⟩
          | ok pr =>
              obtain ⟨s2, pid⟩ := pr
              have hents := upsert_preserves_entries hup
              simp only
              constructor
              · intro x hx
                rcases List.mem_append.mp hx with hx1 | hx2
                · exact hinv1 x (hents ▸ hx1)
                · rw [List.mem_singleton.mp hx2]
                  intro ts hts
                  cases hts
              · rw [List.map_append, List.nodup_append]
                refine ⟨by rw [hents]; exact hnd1, List.nodup_singleton _, ?_⟩
                intro a ha hb
                have hab : a = freshId (s2.entries.map (fun e => e.id)) := by simpa using hb
                have hlt : a < freshId (s2.entries.map (fun e => e.id)) := lt_freshId ha
                omega

theorem update_entry_preserves {s : Store} (eid : Nat) (pn t no : String)
    (stv : Ts) (env : Option Ts)
    (hinv : Inv s) (hnd : (s.entries.map (fun e => e.id)).Nodup) :
    Inv (update_entry s eid pn t no stv env).1
      ∧ ((update_entry s eid pn t no stv env).1.entries.map (fun e => e.id)).Nodup := by
  have hgen : ∀ (s1 : Store) (pid : Nat) (newst : Ts) (newend : Option Ts) (newdur : Option Int),
      Inv s1 → (s1.entries.map (fun e => e.id)).Nodup →
      (∀ ts, newend = some ts → ∃ sv ev, newst = some sv ∧ ts = some ev ∧ newdur = some (ev - sv)) →
      Inv { s1 with entries := s1.entries.map (fun x =>
          if x.id = eid then
            { x with project_id := pid, task := strip t, notes := strip no,
                     start_ts := newst, end_ts := newend, duration_s := newdur }
          else x) }
        ∧ (({ s1 with entries := s1.entries.map (fun x =>
            if x.id = eid then
              { x with project_id := pid, task := strip t, notes := strip no,
                       start_ts := newst, end_ts := newend, duration_s := newdur }
            else x) } : Store).entries.map (fun e => e.id)).Nodup := by
    intro s1 pid newst newend newdur hinv1 hnd1 hok
    constructor
    · intro x hx
      obtain ⟨y, hy, rfl⟩ := List.mem_map.mp hx
      by_cases hyid : y.id = eid
      · rw [if_pos hyid]
        intro ts hts
        exact hok ts hts
      · rw [if_neg hyid]
        exact hinv1 y hy
    · have hid : (s1.entries.map (fun x =>
          if x.id = eid then
            { x with project_id := pid, task := strip t, notes := strip no,
                     start_ts := newst, end_ts := newend, duration_s := newdur }
          else x)).map (fun e2 => e2.id) = s1.entries.map (fun e2 => e2.id) := by
        rw [List.map_map]
        apply List.map_congr_left
        intro a ha
        by_cases haid : a.id = eid <;> simp [haid]
      rw [hid]
      exact hnd1
  simp only [update_entry]
  cases hup : upsert_project s pn with
  | error m => exact ⟨hinv, hnd⟩
  | ok pr =>
      obtain ⟨s1, pid⟩ := pr
      have hents := upsert_preserves_entries hup
      have hinv1 : Inv s1 := fun e he => hinv e (hents ▸ he)
      have hnd1 : (s1.entries.map (fun e => e.id)).Nodup := by rw [hents]; exact hnd
      simp only
      cases env with
      | none =>
          exact hgen s1 pid stv none none hinv1 hnd1 (by intro ts hts; cases hts)
      | some en =>
          cases stv with
          | none => exact ⟨hinv1, hnd1⟩
          | some sv =>
              cases en with
              | none => exact ⟨hinv1, hnd1⟩
              | some ev =>
                  exact hgen s1 pid (some sv) (some (some ev)) (some (ev - sv)) hinv1 hnd1
                    (by intro ts hts; cases hts; exact ⟨sv, ev, rfl, rfl, rfl⟩)

theorem delete_entry_preserves {s : Store} (eid : Nat)
    (hinv : Inv s) (hnd : (s.entries.map (fun e => e.id)).Nodup) :
    Inv (delete_entry s eid)
      ∧ ((delete_entry s eid).entries.map (fun e => e.id)).Nodup := by
  constructor
  · intro x hx
    exact hinv x (List.mem_of_mem_filter hx)
  · exact List.Nodup.sublist (List.Sublist.map _ (List.filter_sublist _)) hnd

theorem reach_invariant {s : Store} (h : Reach s) :
    Inv s ∧ (s.entries.map (fun e => e.id)).Nodup := by
  induction h with
  | init => exact ⟨fun e he => absurd he (by simp [Store.empty]), by simp [Store.empty]⟩
  | upsert n hr hup ih =>
      have hents := upsert_preserves_entries hup
      exact ⟨fun e he => ih.1 e (hents ▸ he), by rw [hents]; exact ih.2⟩
  | start pn t no now hr ih => exact start_entry_preserves pn t no now ih.1 ih.2
  | stop eid now hr hok ih => exact stop_entry_preserves ih.1 ih.2 hok
  | finalize now hr hok ih =>
      simp only [finalize_running_if_any] at hok
      split at hok
      · exact stop_entry_preserves ih.1 ih.2 hok
      · injection hok with h2
        subst h2
        exact ih
  | update eid pn t no stv en hr ih =>
      exact update_entry_preserves eid pn t no stv en ih.1 ih.2
  | del eid hr ih => exact delete_entry_preserves eid ih.1 ih.2

/-- C6 confirmed: in every state reachable from a fresh database by the
store's operations, every closed entry (`end_ts` stored) has a parseable
start and end with `duration_s = end - start` in whole seconds (`stop_entry`
and `update_entry` both recompute it from the stored values, as the
preservation lemmas used in the induction show); and `update_entry` with a
null end sets the updated row's end and duration to null. -/
theorem C6_duration_invariant :
    (∀ s : Store, Reach s → Inv s)
    ∧ (∀ (s : Store) (eid : Nat) (pn t no : String) (stv : Ts),
        ¬ strip pn = "" →
        ∀ x ∈ (update_entry s eid pn t no stv none).1.entries,
          x.id = eid → x.end_ts = none ∧ x.duration_s = none) := by
  constructor
  · exact fun s hr => (reach_invariant hr).1
  · intro s eid pn t no stv hpn x hx hxid
    obtain ⟨s1, pid, hup⟩ := upsert_ok_of_nonempty (s := s) hpn
    rw [show update_entry s eid pn t no stv none =
        ({ s1 with entries := s1.entries.map (fun x2 =>
            if x2.id = eid then
              { x2 with project_id := pid, task := strip t, notes := strip no,
                        start_ts := stv, end_ts := none, duration_s := none }
            else x2) }, .ok ()) from by simp [update_entry, hup]] at hx
    obtain ⟨y, hy, rfl⟩ := List.mem_map.mp hx
    by_cases hyid : y.id = eid
    · rw [if_pos hyid]
      exact ⟨rfl, rfl⟩
    · rw [if_neg hyid] at hxid
      exact absurd hxid hyid

/-- C6 witness: the invariant evaluated on a concrete reachable state (one
start, then a stop), and the null-end update on a concrete store. -/
theorem C6_witness :
    Inv (start_entry Store.empty "acme" "t" "" 5).1
    ∧ (∀ x ∈ (update_entry exStoreClosed 1 "acme" "t2" "n" (some 7) none).1.entries,
        x.id = 1 → x.end_ts = none ∧ x.duration_s = none) :=
  ⟨C6_duration_invariant.1 _ (Reach.start "acme" "t" "" 5 Reach.init),
   C6_duration_invariant.2 exStoreClosed 1 "acme" "t2" "n" (some 7) (by decide)⟩

/-! ### C9 — CSV export shape and field-by-field round trip -/

theorem mk_data (f : String) : String.mk f.data = f := rfl

theorem pf_nil_eq (st : PState) (cur : List Char) (acc : List String) :
    parse_fields [] st cur acc = acc ++ [String.mk cur.reverse] := by
  cases st <;> rfl

theorem pf_step_other {c : Char} (hq : ¬ c = '"') (hc : ¬ c = ',')
    (rest cur : List Char) (acc : List String) :
    parse_fields (c :: rest) .unquoted cur acc =
      parse_fields rest .unquoted (c :: cur) acc := by
  simp [parse_fields, hq, hc]

theorem pf_step_comma (rest cur : List Char) (acc : List String) :
    parse_fields (',' :: rest) .unquoted cur acc =
      parse_fields rest .unquoted [] (acc ++ [String.mk cur.reverse]) := by
  simp [parse_fields]

theorem pf_step_openq (rest cur : List Char) (acc : List String) :
    parse_fields ('"' :: rest) .unquoted cur acc =
      parse_fields rest .quoted cur acc := by
  simp [parse_fields]

theorem pf_step_quoted_other {c : Char} (hq : ¬ c = '"')
    (rest cur : List Char) (acc : List String) :
    parse_fields (c :: rest) .quoted cur acc =
      parse_fields rest .quoted (c :: cur) acc := by
  simp [parse_fields, hq]

theorem pf_step_quoted_q (rest cur : List Char) (acc : List String) :
    parse_fields ('"' :: rest) .quoted cur acc =
      parse_fields rest .quoteSeen cur acc := by
  simp [parse_fields]

theorem pf_step_qs_q (rest cur : List Char) (acc : List String) :
    parse_fields ('"' :: rest) .quoteSeen cur acc =
      parse_fields rest .quoted ('"' :: cur) acc := by
  simp [parse_fields]

theorem pf_step_qs_comma (rest cur : List Char) (acc : List String) :
    parse_fields (',' :: rest) .quoteSeen cur acc =
      parse_fields rest .unquoted [] (acc ++ [String.mk cur.reverse]) := by
  simp [parse_fields]

theorem pf_unquoted (cs : List Char) (h : ∀ c ∈ cs, ¬ c = '"' ∧ ¬ c = ',')
    (rest cur : List Char) (acc : List String) :
    parse_fields (cs ++ rest) .unquoted cur acc =
      parse_fields rest .unquoted (cs.reverse ++ cur) acc := by
  induction cs generalizing cur with
  | nil => simp
  | cons c cs ih =>
      obtain ⟨hq, hc⟩ := h c (List.mem_cons_self _ _)
      rw [List.cons_append, pf_step_other hq hc,
        ih (fun c2 hc2 => h c2 (List.mem_cons_of_mem _ hc2))]
      simp

theorem pf_quoted_esc (cs : List Char) (rest cur : List Char) (acc : List String) :
    parse_fields (esc_chars cs ++ '"' :: rest) .quoted cur acc =
      parse_fields rest .quoteSeen (cs.reverse ++ cur) acc := by
  induction cs generalizing cur with
  | nil =>
      show parse_fields ('"' :: rest) .quoted cur acc = _
      rw [pf_step_quoted_q]
      simp
  | cons c cs ih =>
      by_cases hq : c = '"'
      · subst hq
        rw [show esc_chars ('"' :: cs) = '"' :: '"' :: esc_chars cs from by
          simp [esc_chars]]
        rw [List.cons_append, List.cons_append, pf_step_quoted_q, pf_step_qs_q, ih]
        simp
      · rw [show esc_chars (c :: cs) = c :: esc_chars cs from by simp [esc_chars, hq]]
        rw [List.cons_append, pf_step_quoted_other hq, ih]
        simp

theorem csv_field_data (f : String) (h : needs_quote f = true) :
    (csv_field f).data = '"' :: (esc_chars f.data ++ ['"']) := by
  simp only [csv_field, if_pos h]
  rw [String.data_append, String.data_append]
  rfl

theorem not_mem_of_needs_quote_false {f : String} (h : ¬ needs_quote f = true) :
    ∀ c ∈ f.data, ¬ c = '"' ∧ ¬ c = ',' := by
  intro c hc
  have hfa : f.data.any (fun c2 => c2 = ',' || c2 = '"' || c2 = '\n' || c2 = '\r') = false := by
    have hf : needs_quote f = false := Bool.eq_false_iff.mpr h
    simpa [needs_quote] using hf
  have h2 := List.any_eq_false.mp hfa c hc
  simp only [Bool.or_eq_true, decide_eq_true_eq, not_or] at h2
  exact ⟨h2.1.1.2, h2.1.1.1⟩

theorem pf_field_nil (f : String) (acc : List String) :
    parse_fields (csv_field f).data .unquoted [] acc = acc ++ [f] := by
  by_cases h : needs_quote f = true
  · rw [csv_field_data f h, pf_step_openq, pf_quoted_esc, pf_nil_eq]
    simp [mk_data]
  · have hdata : (csv_field f).data = f.data := by simp [csv_field, h]
    rw [hdata, ← List.append_nil f.data,
      pf_unquoted f.data (not_mem_of_needs_quote_false h) [] [] acc, pf_nil_eq]
    simp [mk_data]

theorem pf_field_comma (f : String) (tail : List Char) (acc : List String) :
    parse_fields ((csv_field f).data ++ ',' :: tail) .unquoted [] acc =
      parse_fields tail .unquoted [] (acc ++ [f]) := by
  by_cases h : needs_quote f = true
  · rw [csv_field_data f h, List.cons_append, List.append_assoc,
      show (['"'] ++ ',' :: tail : List Char) = '"' :: ',' :: tail from rfl,
      pf_step_openq, pf_quoted_esc, pf_step_qs_comma]
    simp [mk_data]
  · have hdata : (csv_field f).data = f.data := by simp [csv_field, h]
    rw [hdata, pf_unquoted f.data (not_mem_of_needs_quote_false h) (',' :: tail) [] acc,
      pf_step_comma]
    simp [mk_data]

/-- Writing one record and parsing it back recovers every field exactly, for
every record with at least one field (commas, quotes and line breaks inside
fields included: they travel inside the quoted form). -/
theorem csv_round_trip (f : String) (fs : List String) :
    parse_csv_line (csv_line (f :: fs)) = f :: fs := by
  suffices h : ∀ (fs : List String) (f : String) (acc : List String),
      parse_fields (csv_line (f :: fs)).data .unquoted [] acc = acc ++ f :: fs by
    simpa [parse_csv_line] using h fs f []
  intro fs
  induction fs with
  | nil =>
      intro f acc
      exact pf_field_nil f acc
  | cons f2 fs ih =>
      intro f acc
      have hdata : (csv_line (f :: f2 :: fs)).data =
          (csv_field f).data ++ ',' :: (csv_line (f2 :: fs)).data := by
        show (csv_field f ++ "," ++ csv_line (f2 :: fs)).data = _
        rw [String.data_append, String.data_append, List.append_assoc]
        rfl
      rw [hdata, pf_field_comma, ih]
      simp

/-- The seven cells the amended claim asserts for a row: id, project, task,
notes, start and end verbatim, and the duration cell as `pretty_duration`
of the cached duration — recomputed as `end - start` for rows with an end
but no cache, and `0` when neither is present (`int(dur or 0)`). -/
def claim_cells (r : QRow) : List String :=
  [toString r.id, r.project, r.task, r.notes, tsRender r.start_ts, endRender r.end_ts,
   pretty_duration (match r.duration_s, r.end_ts with
     | some d, _ => d
     | none, some en => en.getD 0 - r.start_ts.getD 0
     | none, none => 0)]

theorem export_row_wf {r : QRow} (h : QRowWf r) : export_row r = some (claim_cells r) := by
  obtain ⟨hst, hen⟩ := h
  rcases hs : r.start_ts with _ | sv
  · exact absurd hs hst
  · rcases he : r.end_ts with _ | t2
    · rcases hd : r.duration_s with _ | d
      · simp [export_row, export_dur, claim_cells, hs, he, hd]
      · simp [export_row, export_dur, claim_cells, hs, he, hd]
    · rcases t2 with _ | ev
      · exact absurd rfl (hen none he)
      · rcases hd : r.duration_s with _ | d
        · simp [export_row, export_dur, claim_cells, hs, he, hd]
        · simp [export_row, export_dur, claim_cells, hs, he, hd]

theorem export_rows_go_wf (rows : List QRow) (hwf : ∀ r ∈ rows, QRowWf r) :
    export_rows_go rows = some (rows.map claim_cells) := by
  induction rows with
  | nil => rfl
  | cons r rest ih =>
      simp only [export_rows_go, export_row_wf (hwf r (List.mem_cons_self _ _)),
        ih (fun r2 h2 => hwf r2 (List.mem_cons_of_mem _ h2)), List.map_cons]

/-- C9 counterexample: the exported header's seventh cell is the literal
`"Duration (h:mm:ss)"`, not `"Duration"`; exporting no rows already
produces a header different from the one the claim states. -/
theorem C9_counterexample :
    export_csv [] = some [["ID", "Project", "Task", "Notes", "Start", "End",
      "Duration (h:mm:ss)"]]
    ∧ export_csv [] ≠ some [["ID", "Project", "Task", "Notes", "Start", "End",
      "Duration"]] := by
  constructor
  · rfl
  · decide

/-- C9 amended (the header's seventh column is the literal
`Duration (h:mm:ss)`; everything else as claimed): for every list of rows
whose stored timestamps parse, the written file is the 7-column header
followed by one record per row, and parsing any written record back
field-by-field reproduces the row's id, project, task, notes, start and end
exactly, with the duration field equal to `pretty_duration` of the cached
duration seconds (recomputed on the fly for rows with an end but no
cache). -/
theorem C9_export_round_trip (rows : List QRow) (hwf : ∀ r ∈ rows, QRowWf r) :
    export_csv rows = some (export_header :: rows.map claim_cells)
    ∧ (∀ cells ∈ export_header :: rows.map claim_cells,
        parse_csv_line (csv_line cells) = cells) := by
  constructor
  · simp only [export_csv, export_rows_go_wf rows hwf]
  · intro cells hc
    rcases List.mem_cons.mp hc with rfl | hmem
    · decide
    · obtain ⟨r, hr, rfl⟩ := List.mem_map.mp hmem
      show parse_csv_line (csv_line (toString r.id :: _)) = _
      exact csv_round_trip _ _

/-- An export row carrying every kind of tricky field content: commas,
quotes and a line break. -/
def exTrickyRow : QRow :=
  { id := 3, project := "a,b", task := "say \"hi\"", notes := "line1\nline2",
    start_ts := some 50, end_ts := some (some 80), duration_s := none }

/-- C9 witness: the amended theorem applied to a concrete row list whose
fields contain delimiters, quotes and a newline. -/
theorem C9_witness :
    export_csv [exTrickyRow] = some (export_header :: [exTrickyRow].map claim_cells)
    ∧ (∀ cells ∈ export_header :: [exTrickyRow].map claim_cells,
        parse_csv_line (csv_line cells) = cells) :=
  C9_export_round_trip [exTrickyRow] (by
    intro r hr
    rcases List.mem_singleton.mp hr with rfl
    exact ⟨by decide, by intro t ht; cases ht; decide⟩)

end TimeTracker
